import Mathlib

/-
  Verification development for the template-rendering and filter-dispatch
  subsystem in src/babelapi/generator/jinja.py.

  Strings are modelled as `List Char` where character-level scanning matters
  (the doc-tag engine) and as `String` elsewhere.  Python dicts are modelled
  as functions `String → Option _` updated by assignment.  Recursions whose
  measure is not structural use explicit fuel initialized to the input
  length, so every definition evaluates by kernel reduction.
-/

/-! ## Doc-tag substitution engine (source lines 27-28 and 107-127)

The source compiles the regular expression

    :(?P<tag>[A-z]*):`(?P<val>.*?)`

Note the character class is literally `[A-z]` (code points 65 to 122, which
includes the six punctuation characters between capital Z and lowercase a),
the tag group is starred (it may be empty), and `.` does not match a
newline.  Because `:` is outside `[A-z]`, the greedy tag group never
backtracks, and the non-greedy value group always stops at the first
backtick, so the scanner below is an exact model of the regex search.
-/

def backtickChar : Char := Char.ofNat 96

def newlineChar : Char := Char.ofNat 10

/-- The character class `[A-z]` used for the tag group. -/
def isTagChar (c : Char) : Bool := decide ('A' ≤ c) && decide (c ≤ 'z')

/-- The non-greedy value group `(?P<val>.*?)` followed by the closing
backtick: the shortest run of non-newline characters up to the first
backtick.  `none` when the backtick is missing or a newline intervenes. -/
def takeVal : List Char → Option (List Char × List Char)
  | [] => none
  | c :: r =>
    if c = backtickChar then some ([], r)
    else if c = newlineChar then none
    else
      match takeVal r with
      | some (v, rest) => some (c :: v, rest)
      | none => none

/-- One attempt of the regex at the head of the input: on success, the tag
group, the value group, and the input remaining after the whole match. -/
def matchAt : List Char → Option (List Char × List Char × List Char)
  | [] => none
  | c :: s =>
    if c = ':' then
      match s.dropWhile isTagChar with
      | c1 :: c2 :: s2 =>
        if c1 = ':' then
          if c2 = backtickChar then
            match takeVal s2 with
            | some (v, rest) => some (s.takeWhile isTagChar, v, rest)
            | none => none
          else none
        else none
      | _ => none
    else none

/-- The text of a whole match (regex group 0): `:tag:` plus the
backtick-delimited value. -/
def matchText (t v : List Char) : List Char :=
  ':' :: t ++ ':' :: backtickChar :: v ++ [backtickChar]

/-- `re.finditer`: scan left to right, yielding non-overlapping matches and
resuming after each match end.  Fuel is the remaining input length. -/
def findMatchesAux : Nat → List Char → List (List Char × List Char)
  | 0, _ => []
  | _ + 1, [] => []
  | fuel + 1, c :: rest =>
    match matchAt (c :: rest) with
    | some (t, v, after) => (t, v) :: findMatchesAux fuel after
    | none => findMatchesAux fuel rest

/-- All matches of the doc-tag regex in a string, in order. -/
def findMatches (s : List Char) : List (List Char × List Char) :=
  findMatchesAux s.length s

/-- Python `str.replace`: replace every non-overlapping occurrence of `old`
(nonempty in every use below), scanning left to right. -/
def replaceAllAux : Nat → List Char → List Char → List Char → List Char
  | 0, s, _, _ => s
  | fuel + 1, s, old, new =>
    if !old.isEmpty && old.isPrefixOf s then
      new ++ replaceAllAux fuel (s.drop old.length) old new
    else
      match s with
      | [] => []
      | c :: r => c :: replaceAllAux fuel r old new

def replaceAll (s old new : List Char) : List Char :=
  replaceAllAux s.length s old new

/-- The loop body of `_doc_sub` (source lines 119-127): iterate over the
matches found in the original string; for each, look the tag up in the
keyword mapping (raising on a miss), then rebind the working string to
`doc.replace(matched_text, macro(val))`. -/
def doc_sub_go (macros : List Char → Option (List Char → List Char)) :
    List (List Char × List Char) → List Char → Except (List Char) (List Char)
  | [], d => Except.ok d
  | (t, v) :: ms, d =>
    match macros t with
    | none => Except.error t
    | some f => doc_sub_go macros ms (replaceAll d (matchText t v) (f v))

/-- `Jinja2Generator._doc_sub`: the match iterator is created from the
original string, so rebinding the working string inside the loop does not
change the sequence of matches processed.  The extra positional arguments
passed through to each macro are absorbed into the macro functions. -/
def doc_sub (doc : List Char) (macros : List Char → Option (List Char → List Char)) :
    Except (List Char) (List Char) :=
  doc_sub_go macros (findMatches doc) doc

/-- Follows the spec's words, for comparison with `doc_sub`: a single
left-to-right pass over the original string in which each matched
occurrence is replaced at its own position and every macro output is
inserted literally, never revisited. -/
def specSinglePassAux (macros : List Char → Option (List Char → List Char)) :
    Nat → List Char → Except (List Char) (List Char)
  | 0, s => Except.ok s
  | _ + 1, [] => Except.ok []
  | fuel + 1, c :: rest =>
    match matchAt (c :: rest) with
    | some (t, v, after) =>
      match macros t with
      | none => Except.error t
      | some f =>
        match specSinglePassAux macros fuel after with
        | Except.ok r => Except.ok (f v ++ r)
        | Except.error e => Except.error e
    | none =>
      match specSinglePassAux macros fuel rest with
      | Except.ok r => Except.ok (c :: r)
      | Except.error e => Except.error e

def specSinglePassSub (doc : List Char)
    (macros : List Char → Option (List Char → List Char)) :
    Except (List Char) (List Char) :=
  specSinglePassAux macros doc.length doc






/-- A concrete macro mapping for the single-occurrence witness: `op` wraps
its value in angle brackets. -/
def c4macroFn : List Char → List Char :=
  fun v => String.toList "<<" ++ v ++ String.toList ">>"

def c4macros : List Char → Option (List Char → List Char) :=
  fun t => if t = String.toList "op" then some c4macroFn else none

/-- A macro mapping under which the output of one macro coincides with the
matched text of a later match. -/
def c5doc : List Char := String.toList ":a:`1` and :b:`2`"

def c5macros : List Char → Option (List Char → List Char) :=
  fun t =>
    if t = String.toList "a" then some (fun _ => String.toList ":b:`2`")
    else if t = String.toList "b" then some (fun _ => String.toList "X")
    else none

/-! ## Data-type predicates (source lines 57-61)

The classes `Binary`, `List`, `Struct`, `Union` come from
`babelapi.data_type`, outside this fragment. -/

/-- Modelled from the spec: the data model (section 3) lists Struct, Union,
List-of and Binary as distinct kinds of schema value; the core only
classifies a node's kind. -/
inductive DataValue where
  | binary
  | listv
  | struct
  | union
  | other

/-- `lambda s: isinstance(s, Binary)` (source line 57). -/
def is_binary_filter : DataValue → Bool
  | DataValue.binary => true
  | _ => false

/-- `lambda s: isinstance(s, List)` (source line 58). -/
def is_list_filter : DataValue → Bool
  | DataValue.listv => true
  | _ => false

/-- `lambda s: isinstance(s, Struct)` (source line 59). -/
def is_struct_filter : DataValue → Bool
  | DataValue.struct => true
  | _ => false

/-- `lambda s: isinstance(s, Union)` (source line 60). -/
def is_union_filter : DataValue → Bool
  | DataValue.union => true
  | _ => false

/-- `lambda s: isinstance(s, Union)` (source line 61): the `is_composite`
filter is defined with `Union`, not with a struct-or-union test. -/
def is_composite_filter : DataValue → Bool
  | DataValue.union => true
  | _ => false

/-! ## Target languages and the filter registry (source lines 30-90)

The concrete language classes (`babelapi.lang.js`, `.python`, `.ruby`) are
outside this fragment; the environment is therefore parameterized by the
list of registered languages.  Formatting methods are abstracted as
`String → String`. -/

structure TargetLanguage where
  short_name : String
  supported_extensions : List String
  format_method : String → String
  format_class : String → String
  format_variable : String → String
  format_string_value : String → String
  format_type : String → String
  format_obj : String → String
  format_func_call_args : String → String

/-- A value stored in the template environment's filter dict.  Filters whose
implementations live outside this fragment (json pretty-printing, word
splitting, the slicing and formatting helpers, and the `doc_sub` wrapper
around the engine modelled above) are carried as tagged entries; type
predicates and language formatters are carried as functions. -/
inductive FilterVal where
  | predF (f : DataValue → Bool)
  | strF (f : String → String)
  | extHelper (tag : String)

/-- Python dict assignment `m[k] = v` on a string-keyed dict. -/
def dset (m : String → Option FilterVal) (k : String) (v : FilterVal) :
    String → Option FilterVal :=
  fun x => if x = k then some v else m x

/-- Dict assignment on the extension dict. -/
def extset (m : String → Option TargetLanguage) (k : String) (v : TargetLanguage) :
    String → Option TargetLanguage :=
  fun x => if x = k then some v else m x

/-- Source lines 46-48: `for language in self.languages: for ext in
language.get_supported_extensions(): self.ext_to_language[ext] = language`. -/
def build_ext_to_language (langs : List TargetLanguage) :
    String → Option TargetLanguage :=
  langs.foldl
    (fun m language =>
      language.supported_extensions.foldl (fun m2 ext => extset m2 ext language) m)
    (fun _ => none)

/-- Source lines 136-145: the fixed per-language filter dict of
`get_template_filters`, in source order. -/
def get_template_filters (language : TargetLanguage) :
    List (String × (String → String)) :=
  [("method", fun s => language.format_method s),
   ("class", fun s => language.format_class s),
   ("variable", fun s => language.format_variable s),
   ("string_value", language.format_string_value),
   ("type", language.format_type),
   ("pprint", language.format_obj),
   ("func_call_args", language.format_func_call_args)]

/-- Source line 83: `language.get_language_short_name() + '_' + filter_name`. -/
def prefixedName (language : TargetLanguage) (filter_name : String) : String :=
  language.short_name ++ "_" ++ filter_name

/-- Source lines 56-78: the generic filters installed on the environment. -/
def baseFilters : String → Option FilterVal :=
  let m : String → Option FilterVal := fun _ => none
  let m := dset m "pjson" (FilterVal.extHelper "pjson")
  let m := dset m "is_binary" (FilterVal.predF is_binary_filter)
  let m := dset m "is_list" (FilterVal.predF is_list_filter)
  let m := dset m "is_struct" (FilterVal.predF is_struct_filter)
  let m := dset m "is_union" (FilterVal.predF is_union_filter)
  let m := dset m "is_composite" (FilterVal.predF is_composite_filter)
  let m := dset m "formal" (FilterVal.extHelper "formal")
  let m := dset m "inverse_format" (FilterVal.extHelper "inverse_format")
  let m := dset m "string_slice" (FilterVal.extHelper "string_slice")
  let m := dset m "doc_sub" (FilterVal.extHelper "doc_sub")
  m

/-- Source lines 81-84: install every language's filters under their
permanently prefixed names. -/
def addPrefixedFilters (m : String → Option FilterVal)
    (langs : List TargetLanguage) : String → Option FilterVal :=
  langs.foldl
    (fun fs language =>
      (get_template_filters language).foldl
        (fun fs2 p => dset fs2 (prefixedName language p.1) (FilterVal.strF p.2)) fs)
    m

/-- Source lines 86-90: a language's overlay is a copy of the environment's
filters (taken after the prefixed names were installed) with the language's
own filters bound under their plain names. -/
def overlayFor (base : String → Option FilterVal) (language : TargetLanguage) :
    String → Option FilterVal :=
  (get_template_filters language).foldl
    (fun fs p => dset fs p.1 (FilterVal.strF p.2)) base

/-- The `Jinja2Generator` state relevant to rendering: the extension dict,
the filter dict frozen at the end of `__init__` (the base every overlay in
`language_to_template_filters` was copied from), and the environment's
currently active filter dict. -/
structure JEnv where
  languages : List TargetLanguage
  ext_to_language : String → Option TargetLanguage
  initFilters : String → Option FilterVal
  filters : String → Option FilterVal

/-- `Jinja2Generator.__init__` for a given language list. -/
def initEnv (langs : List TargetLanguage) : JEnv :=
  let withPrefixed := addPrefixedFilters baseFilters langs
  { languages := langs
    ext_to_language := build_ext_to_language langs
    initFilters := withPrefixed
    filters := withPrefixed }

/-- `Jinja2Generator.render` (source lines 92-105).  Compilation plus
rendering of the template text (`from_string` and `Template.render`, both
external jinja2 calls) is abstracted as `rt`, which receives the filter
dict active at that moment and either returns the rendered text or raises.
The source has no try/finally: when `rt` raises inside the known-extension
branch, the exception propagates before `self.template_env.filters =
backup_filters` runs, so the state keeps the overlay. -/
def render {ε : Type} (rt : (String → Option FilterVal) → String → Except ε String)
    (env : JEnv) (extension text : String) : Except ε String × JEnv :=
  match env.ext_to_language extension with
  | some language =>
    let backup_filters := env.filters
    let env1 := { env with filters := overlayFor env.initFilters language }
    match rt env1.filters text with
    | Except.ok rendered_contents =>
      (Except.ok rendered_contents, { env1 with filters := backup_filters })
    | Except.error e => (Except.error e, env1)
  | none => (rt env.filters text, env)

/-- A template whose only filter reference is the plain name `type`: renders
to the active `type` filter applied to `arg`, and raises if `type` is not
bound to a language formatter. -/
def probeType (arg : String) :
    (String → Option FilterVal) → String → Except Unit String :=
  fun fs _ =>
    match fs "type" with
    | some (FilterVal.strF f) => Except.ok (f arg)
    | _ => Except.error ()

/-! ## The trim extension (source lines 147-167) -/

inductive JTemplateToken where
  | nameTok (s : String)
  | blockEndTok

/-- Modelled from the spec: jinja2's expression sub-parser is external; per
section 4.5 the directive "must parse one expression (discarded)", and when
an extension's `parse` runs, the stream starts at the tag's own name token,
which is what the expression parser consumes. -/
def parse_expression :
    List JTemplateToken → Option (String × List JTemplateToken)
  | JTemplateToken.nameTok s :: rest => some (s, rest)
  | _ => none

inductive JNode where
  | outputExpr (e : String)
  | outputText (s : String)

/-- `TrimExtension.parse` (source lines 165-167): call
`parser.parse_expression()`, discard its result, and return no nodes. -/
def TrimExtension_parse (tokens : List JTemplateToken) :
    Option (List JNode × List JTemplateToken) :=
  match parse_expression tokens with
  | some (_, rest) => some ([], rest)
  | none => none

/-- A lexed template: output expressions, trim directives (written with the
whitespace-control minus markers as in the class docstring), and literal
text runs. -/
inductive RawItem where
  | exprTag (e : String)
  | trimTag
  | rawText (s : String)

def isWSString (s : String) : Bool :=
  s.toList.all (fun c => c == ' ' || c == newlineChar)

/-- Modelled from the spec: jinja2's whitespace control is external; a minus
marker on the right edge of a block strips the whitespace that follows it. -/
def stripAfterTrim : List RawItem → List RawItem
  | [] => []
  | RawItem.trimTag :: RawItem.rawText s :: rest =>
    if isWSString s then RawItem.trimTag :: stripAfterTrim rest
    else RawItem.trimTag :: RawItem.rawText s :: stripAfterTrim rest
  | x :: rest => x :: stripAfterTrim rest

/-- Modelled from the spec: a minus marker on the left edge of a block
strips the whitespace that precedes it. -/
def stripBeforeTrim : List RawItem → List RawItem
  | [] => []
  | RawItem.rawText s :: RawItem.trimTag :: rest =>
    if isWSString s then RawItem.trimTag :: stripBeforeTrim rest
    else RawItem.rawText s :: RawItem.trimTag :: stripBeforeTrim rest
  | x :: rest => x :: stripBeforeTrim rest

def applyTrimWhitespace (items : List RawItem) : List RawItem :=
  stripAfterTrim (stripBeforeTrim items)

/-- Modelled from the spec: the template parser emits an output node per
expression and per text run; a trim block hands its token stream (the tag
name) to `TrimExtension_parse` and splices in whatever nodes it returns,
requiring the block's tokens to be fully consumed. -/
def parseItems : List RawItem → Option (List JNode)
  | [] => some []
  | RawItem.exprTag e :: rest =>
    match parseItems rest with
    | some ns => some (JNode.outputExpr e :: ns)
    | none => none
  | RawItem.rawText s :: rest =>
    match parseItems rest with
    | some ns => some (JNode.outputText s :: ns)
    | none => none
  | RawItem.trimTag :: rest =>
    match TrimExtension_parse [JTemplateToken.nameTok "trim"] with
    | some (nodes, []) =>
      match parseItems rest with
      | some ns => some (nodes ++ ns)
      | none => none
    | _ => none

/-- Modelled from the spec: the render stream is the concatenation of the
nodes' outputs; expression nodes evaluate through the environment. -/
def renderNodes (evalExpr : String → String) : List JNode → String
  | [] => ""
  | JNode.outputExpr e :: rest => evalExpr e ++ renderNodes evalExpr rest
  | JNode.outputText s :: rest => s ++ renderNodes evalExpr rest

/-! ## Sample languages used by the closed witnesses and counterexamples -/

def sampleLanguage (n : String) (exts : List String) : TargetLanguage :=
  { short_name := n
    supported_extensions := exts
    format_method := fun s => s ++ "#m" ++ n
    format_class := fun s => s ++ "#c" ++ n
    format_variable := fun s => s ++ "#v" ++ n
    format_string_value := fun s => s ++ "#s" ++ n
    format_type := fun s => s ++ "#t" ++ n
    format_obj := fun s => s ++ "#o" ++ n
    format_func_call_args := fun s => s ++ "#f" ++ n }

def jsSample : TargetLanguage := sampleLanguage "js" [".js"]

def pySample : TargetLanguage := sampleLanguage "python" [".py"]

def txtSampleOne : TargetLanguage := sampleLanguage "one" [".txt"]

def txtSampleTwo : TargetLanguage := sampleLanguage "two" [".txt"]

/-! ## Lemmas about the doc-tag scanner -/

theorem takeVal_eq {s v rest : List Char} (h : takeVal s = some (v, rest)) :
    s = v ++ backtickChar :: rest ∧ ∀ c ∈ v, c ≠ backtickChar ∧ c ≠ newlineChar := by
  induction s generalizing v rest with
  | nil => simp [takeVal] at h
  | cons c r ih =>
    by_cases hb : c = backtickChar
    · simp only [takeVal, if_pos hb] at h
      obtain ⟨hv, hr⟩ := Option.some.inj h |> Prod.mk.inj
      subst hb
      constructor
      · rw [← hv, ← hr]; simp
      · rw [← hv]; intro x hx; simp at hx
    · by_cases hn : c = newlineChar
      · simp [takeVal, if_neg hb, if_pos hn] at h
      · simp only [takeVal, if_neg hb, if_neg hn] at h
        cases hw : takeVal r with
        | none => rw [hw] at h; exact Option.noConfusion h
        | some p =>
          obtain ⟨v', rest'⟩ := p
          rw [hw] at h
          obtain ⟨hv, hr⟩ := Option.some.inj h |> Prod.mk.inj
          obtain ⟨hs, hclean⟩ := ih hw
          subst hr
          constructor
          · rw [← hv]; simp [hs]
          · rw [← hv]
            intro x hx
            rcases List.mem_cons.mp hx with h1 | h2
            · subst h1; exact ⟨hb, hn⟩
            · exact hclean x h2

theorem takeVal_of_clean {v : List Char} (z : List Char)
    (h : ∀ c ∈ v, c ≠ backtickChar ∧ c ≠ newlineChar) :
    takeVal (v ++ backtickChar :: z) = some (v, z) := by
  induction v with
  | nil => simp [takeVal]
  | cons c r ih =>
    have hc := h c (List.mem_cons_self c r)
    simp only [List.cons_append, takeVal, if_neg hc.1, if_neg hc.2, List.append_eq]
    rw [ih (fun x hx => h x (List.mem_cons_of_mem c hx))]

theorem takeWhile_append_all {p : Char → Bool} {t : List Char} {c0 : Char}
    (l : List Char) (ht : ∀ c ∈ t, p c = true) (hc0 : p c0 = false) :
    (t ++ c0 :: l).takeWhile p = t := by
  induction t with
  | nil => simp [List.takeWhile_cons, hc0]
  | cons c r ih =>
    have hc : p c = true := ht c (List.mem_cons_self c r)
    have ihr := ih (fun x hx => ht x (List.mem_cons_of_mem c hx))
    simp [List.cons_append, List.takeWhile_cons, hc, ihr]

theorem dropWhile_append_all {p : Char → Bool} {t : List Char} {c0 : Char}
    (l : List Char) (ht : ∀ c ∈ t, p c = true) (hc0 : p c0 = false) :
    (t ++ c0 :: l).dropWhile p = c0 :: l := by
  induction t with
  | nil => simp [List.dropWhile_cons, hc0]
  | cons c r ih =>
    have hc : p c = true := ht c (List.mem_cons_self c r)
    have ihr := ih (fun x hx => ht x (List.mem_cons_of_mem c hx))
    simp [List.cons_append, List.dropWhile_cons, hc, ihr]

theorem matchText_ne_nil (t v : List Char) : matchText t v ≠ [] := by
  simp [matchText]

theorem matchText_length (t v : List Char) :
    (matchText t v).length = t.length + v.length + 4 := by
  simp [matchText]
  omega

theorem matchAt_eq {s t v r : List Char} (h : matchAt s = some (t, v, r)) :
    s = matchText t v ++ r ∧ (∀ c ∈ t, isTagChar c = true) ∧
      ∀ c ∈ v, c ≠ backtickChar ∧ c ≠ newlineChar := by
  cases s with
  | nil => simp [matchAt] at h
  | cons c s1 =>
    by_cases hc : c = ':'
    · rw [matchAt, if_pos hc] at h
      cases hd : s1.dropWhile isTagChar with
      | nil => rw [hd] at h; exact Option.noConfusion h
      | cons c1 rest1 =>
        cases rest1 with
        | nil => rw [hd] at h; exact Option.noConfusion h
        | cons c2 s2 =>
          rw [hd] at h
          simp only [] at h
          by_cases h1 : c1 = ':'
          · by_cases h2 : c2 = backtickChar
            · rw [if_pos h1, if_pos h2] at h
              cases hw : takeVal s2 with
              | none => rw [hw] at h; exact Option.noConfusion h
              | some p =>
                obtain ⟨v', rest'⟩ := p
                rw [hw] at h
                obtain ⟨ht, hvr⟩ := Option.some.inj h |> Prod.mk.inj
                obtain ⟨hv, hr⟩ := Prod.mk.inj hvr
                obtain ⟨hs2, hclean⟩ := takeVal_eq hw
                subst hc; subst h1; subst h2; subst ht; subst hv; subst hr; subst hs2
                refine ⟨?_, ?_, hclean⟩
                · have hsplit := List.takeWhile_append_dropWhile (p := isTagChar) (l := s1)
                  rw [matchText]
                  simp only [List.cons_append, List.append_assoc, List.singleton_append,
                    List.nil_append]
                  rw [← hd, hsplit]
                · intro x hx
                  exact List.mem_takeWhile_imp hx
            · rw [if_pos h1, if_neg h2] at h; exact Option.noConfusion h
          · rw [if_neg h1] at h; exact Option.noConfusion h
    · rw [matchAt, if_neg hc] at h; exact Option.noConfusion h

theorem matchAt_of_shape {t v : List Char} (z : List Char)
    (ht : ∀ c ∈ t, isTagChar c = true)
    (hv : ∀ c ∈ v, c ≠ backtickChar ∧ c ≠ newlineChar) :
    matchAt (matchText t v ++ z) = some (t, v, z) := by
  have hcolon : isTagChar ':' = false := by decide
  have hshape : matchText t v ++ z =
      ':' :: (t ++ ':' :: (backtickChar :: (v ++ backtickChar :: z))) := by
    simp [matchText]
  rw [hshape, matchAt, if_pos rfl]
  rw [dropWhile_append_all _ ht hcolon, takeWhile_append_all _ ht hcolon]
  simp [takeVal_of_clean z hv]

theorem matchAt_length {s t v r : List Char} (h : matchAt s = some (t, v, r)) :
    r.length + 4 ≤ s.length := by
  obtain ⟨hs, _, _⟩ := matchAt_eq h
  rw [hs, List.length_append, matchText_length]
  omega

theorem findMatchesAux_fuel {fuel fuel' : Nat} {s : List Char}
    (h : s.length ≤ fuel) (h' : s.length ≤ fuel') :
    findMatchesAux fuel s = findMatchesAux fuel' s := by
  induction fuel generalizing fuel' s with
  | zero =>
    have hs : s = [] := List.length_eq_zero.mp (Nat.le_zero.mp h)
    subst hs
    cases fuel' <;> rfl
  | succ n ih =>
    cases s with
    | nil => cases fuel' <;> rfl
    | cons c rest =>
      cases fuel' with
      | zero => simp at h'
      | succ m =>
        simp only [findMatchesAux]
        cases hm : matchAt (c :: rest) with
        | none =>
          have hr : rest.length ≤ n := by simp at h; omega
          have hr' : rest.length ≤ m := by simp at h'; omega
          exact ih hr hr'
        | some tri =>
          obtain ⟨t, v, after⟩ := tri
          have hlen := matchAt_length hm
          have ha : after.length ≤ n := by simp at h; simp at hlen; omega
          have ha' : after.length ≤ m := by simp at h'; simp at hlen; omega
          show (t, v) :: findMatchesAux n after = (t, v) :: findMatchesAux m after
          rw [ih ha ha']

theorem findMatchesAux_nil_matchAt {fuel : Nat} {s : List Char}
    (hf : s.length ≤ fuel) (h : findMatchesAux fuel s = []) :
    ∀ k, matchAt (s.drop k) = none := by
  induction fuel generalizing s with
  | zero =>
    have hs : s = [] := List.length_eq_zero.mp (Nat.le_zero.mp hf)
    subst hs
    intro k
    simp [matchAt]
  | succ n ih =>
    cases s with
    | nil => intro k; simp [matchAt]
    | cons c rest =>
      intro k
      rw [findMatchesAux] at h
      cases hm : matchAt (c :: rest) with
      | some tri => rw [hm] at h; exact absurd h (by simp)
      | none =>
        rw [hm] at h
        cases k with
        | zero => exact hm
        | succ k' =>
          rw [List.drop_succ_cons]
          exact ih (by simp at hf; omega) h k'

theorem findMatchesAux_cons_split {fuel : Nat} {s t v : List Char}
    {ms : List (List Char × List Char)}
    (hf : s.length ≤ fuel) (h : findMatchesAux fuel s = (t, v) :: ms) :
    ∃ pre after, s = pre ++ matchText t v ++ after ∧
      findMatchesAux after.length after = ms ∧
      (∀ k < pre.length, matchAt (s.drop k) = none) ∧
      (∀ c ∈ t, isTagChar c = true) ∧
      (∀ c ∈ v, c ≠ backtickChar ∧ c ≠ newlineChar) := by
  induction fuel generalizing s with
  | zero =>
    have hs : s = [] := List.length_eq_zero.mp (Nat.le_zero.mp hf)
    subst hs
    exact absurd h (by simp [findMatchesAux])
  | succ n ih =>
    cases s with
    | nil => exact absurd h (by simp [findMatchesAux])
    | cons c rest =>
      rw [findMatchesAux] at h
      cases hm : matchAt (c :: rest) with
      | some tri =>
        obtain ⟨t0, v0, after0⟩ := tri
        rw [hm] at h
        simp only [List.cons.injEq, Prod.mk.injEq] at h
        obtain ⟨⟨ht0, hv0⟩, hrest⟩ := h
        subst ht0; subst hv0
        obtain ⟨hs, htag, hval⟩ := matchAt_eq hm
        have hlen := matchAt_length hm
        have hfa : after0.length ≤ n := by simp at hf; simp at hlen; omega
        refine ⟨[], after0, by simpa using hs, ?_, ?_, htag, hval⟩
        · rw [findMatchesAux_fuel (le_refl after0.length) hfa]
          exact hrest
        · intro k hk; simp at hk
      | none =>
        rw [hm] at h
        obtain ⟨pre, after, hs, hafter, hnone, htag, hval⟩ :=
          ih (by simp at hf; omega) h
        refine ⟨c :: pre, after, by simp [hs], hafter, ?_, htag, hval⟩
        intro k hk
        cases k with
        | zero => exact hm
        | succ k' =>
          rw [List.drop_succ_cons]
          exact hnone k' (by simp at hk; omega)

theorem findMatchesAux_mem {fuel : Nat} {s t v : List Char}
    (hf : s.length ≤ fuel) (h : (t, v) ∈ findMatchesAux fuel s) :
    (∀ c ∈ t, isTagChar c = true) ∧
      (∀ c ∈ v, c ≠ backtickChar ∧ c ≠ newlineChar) ∧
      ∃ pre post, s = pre ++ matchText t v ++ post := by
  induction fuel generalizing s with
  | zero =>
    have hs : s = [] := List.length_eq_zero.mp (Nat.le_zero.mp hf)
    subst hs
    exact absurd h (by simp [findMatchesAux])
  | succ n ih =>
    cases s with
    | nil => exact absurd h (by simp [findMatchesAux])
    | cons c rest =>
      rw [findMatchesAux] at h
      cases hm : matchAt (c :: rest) with
      | some tri =>
        obtain ⟨t0, v0, after0⟩ := tri
        rw [hm] at h
        obtain ⟨hs, htag0, hval0⟩ := matchAt_eq hm
        rcases List.mem_cons.mp h with h1 | h2
        · obtain ⟨ht0, hv0⟩ := Prod.mk.inj h1
          subst ht0; subst hv0
          exact ⟨htag0, hval0, [], after0, by simpa using hs⟩
        · have hlen := matchAt_length hm
          obtain ⟨htag, hval, pre, post, hsp⟩ :=
            ih (show after0.length ≤ n by simp at hf; simp at hlen; omega) h2
          refine ⟨htag, hval, matchText t0 v0 ++ pre, post, ?_⟩
          rw [hs, hsp]
          simp [List.append_assoc]
      | none =>
        rw [hm] at h
        obtain ⟨htag, hval, pre, post, hsp⟩ := ih (by simp at hf; omega) h
        exact ⟨htag, hval, c :: pre, post, by simp [hsp]⟩

/-! ## Lemmas about `replaceAll` -/

theorem replaceAllAux_succ (n : Nat) (s old new : List Char) :
    replaceAllAux (n + 1) s old new =
      if !old.isEmpty && old.isPrefixOf s then
        new ++ replaceAllAux n (s.drop old.length) old new
      else
        match s with
        | [] => []
        | c :: r => c :: replaceAllAux n r old new := rfl

theorem replaceAllAux_no_occ {fuel : Nat} {s old new : List Char}
    (hf : s.length ≤ fuel) (h : ∀ k, ¬ old <+: s.drop k) :
    replaceAllAux fuel s old new = s := by
  induction fuel generalizing s with
  | zero => rfl
  | succ n ih =>
    have h0 : ¬ old <+: s := by simpa using h 0
    have hpb : old.isPrefixOf s = false := by
      cases hb : old.isPrefixOf s with
      | false => rfl
      | true => exact absurd (List.isPrefixOf_iff_prefix.mp hb) h0
    rw [replaceAllAux_succ, hpb]
    simp only [Bool.and_false, Bool.false_eq_true, if_false]
    cases s with
    | nil => rfl
    | cons c r =>
      have hr : replaceAllAux n r old new = r := by
        apply ih (by simp at hf; omega)
        intro k
        have hk := h (k + 1)
        rwa [List.drop_succ_cons] at hk
      show c :: replaceAllAux n r old new = c :: r
      rw [hr]

theorem replaceAllAux_split {fuel : Nat} {pre old post new : List Char}
    (hold : old ≠ [])
    (hf : (pre ++ old ++ post).length ≤ fuel)
    (hpre : ∀ k < pre.length, ¬ old <+: (pre ++ old ++ post).drop k)
    (hpost : ∀ k, ¬ old <+: post.drop k) :
    replaceAllAux fuel (pre ++ old ++ post) old new = pre ++ new ++ post := by
  induction fuel generalizing pre with
  | zero =>
    exfalso
    have h1 : old.length ≤ (pre ++ old ++ post).length := by
      simp [List.length_append]
      omega
    have hlen : 0 < old.length := List.length_pos.mpr hold
    omega
  | succ n ih =>
    cases pre with
    | nil =>
      have hp : old.isPrefixOf ((old : List Char) ++ post) = true :=
        List.isPrefixOf_iff_prefix.mpr ⟨post, rfl⟩
      have hne : old.isEmpty = false := by
        cases old with
        | nil => exact absurd rfl hold
        | cons a b => rfl
      simp only [List.nil_append] at hf ⊢
      rw [replaceAllAux_succ, hne, hp]
      simp only [Bool.not_false, Bool.true_and, if_true]
      rw [List.drop_left]
      have hlen : 0 < old.length := List.length_pos.mpr hold
      rw [replaceAllAux_no_occ (by simp at hf; omega) hpost]
    | cons c pre' =>
      have h0 : ¬ old <+: ((c :: pre') ++ old ++ post) := hpre 0 (by simp)
      have hpb : old.isPrefixOf ((c :: pre') ++ old ++ post) = false := by
        cases hb : old.isPrefixOf ((c :: pre') ++ old ++ post) with
        | false => rfl
        | true => exact absurd (List.isPrefixOf_iff_prefix.mp hb) h0
      rw [replaceAllAux_succ, hpb]
      simp only [Bool.and_false, Bool.false_eq_true, if_false]
      have hrec : replaceAllAux n (pre' ++ old ++ post) old new = pre' ++ new ++ post := by
        apply ih (by simp at hf ⊢; omega)
        intro k hk
        have := hpre (k + 1) (by simp; omega)
        rwa [List.cons_append, List.cons_append, List.drop_succ_cons] at this
      simp only [List.cons_append]
      rw [hrec]

/-! ## Lemmas about `doc_sub` -/

theorem doc_sub_go_mem_error {ms : List (List Char × List Char)} {d t v : List Char}
    {macros : List Char → Option (List Char → List Char)}
    (hmem : (t, v) ∈ ms) (habs : macros t = none) :
    ∃ t2, doc_sub_go macros ms d = Except.error t2 ∧ macros t2 = none := by
  induction ms generalizing d with
  | nil => simp at hmem
  | cons p ms' ih =>
    obtain ⟨t0, v0⟩ := p
    cases h0 : macros t0 with
    | none => exact ⟨t0, by simp [doc_sub_go, h0], h0⟩
    | some f0 =>
      rcases List.mem_cons.mp hmem with h1 | h2
      · obtain ⟨ht, _⟩ := Prod.mk.inj h1
        rw [ht, h0] at habs
        exact Option.noConfusion habs
      · obtain ⟨t2, he, hn⟩ := ih h2 (d := replaceAll d (matchText t0 v0) (f0 v0))
        refine ⟨t2, ?_, hn⟩
        simp only [doc_sub_go, h0]
        exact he

theorem doc_sub_go_ok {ms : List (List Char × List Char)} {d : List Char}
    {macros : List Char → Option (List Char → List Char)}
    (h : ∀ p ∈ ms, (macros p.1).isSome = true) :
    ∃ r, doc_sub_go macros ms d = Except.ok r := by
  induction ms generalizing d with
  | nil => exact ⟨d, rfl⟩
  | cons p ms' ih =>
    obtain ⟨t0, v0⟩ := p
    have h0 := h (t0, v0) (List.mem_cons_self _ _)
    cases hm : macros t0 with
    | none => rw [hm] at h0; simp at h0
    | some f0 =>
      obtain ⟨r, hr⟩ :=
        ih (fun q hq => h q (List.mem_cons_of_mem _ hq))
          (d := replaceAll d (matchText t0 v0) (f0 v0))
      refine ⟨r, ?_⟩
      simp only [doc_sub_go, hm]
      exact hr

/-! ## Claim C3 -/

/-- C3 counterexample: the scanner accepts a tag made of a non-letter
character (underscore) and an empty tag, so "tag must match `[A-Za-z]+`" is
false of the code: the compiled class is `[A-z]*`. -/
theorem doc_tag_scanner_counterexample :
    findMatches (String.toList ":_:`a`") = [(String.toList "_", String.toList "a")] ∧
      findMatches (String.toList "::`x`") = [([], String.toList "x")] ∧
      Char.isAlpha '_' = false := by
  decide

/-- C3 (amended): every occurrence the scanner reports has a tag drawn from
the character class `[A-z]` (code points 65-122, possibly empty), a value
free of backticks and newlines (non-greedy up to the closing backtick), and
corresponds to a literal `:tag:`-backtick-value-backtick segment of the
input; malformed text (unterminated backtick, newline in the value) is
never matched. -/
theorem findMatches_sound {doc t v : List Char} (h : (t, v) ∈ findMatches doc) :
    (∀ c ∈ t, isTagChar c = true) ∧
      (∀ c ∈ v, c ≠ backtickChar ∧ c ≠ newlineChar) ∧
      ∃ pre post, doc = pre ++ matchText t v ++ post :=
  findMatchesAux_mem (le_refl doc.length) h

/-- Witness for `findMatches_sound` at a concrete documentation string. -/
theorem findMatches_sound_witness :
    (∀ c ∈ String.toList "op", isTagChar c = true) ∧
      (∀ c ∈ String.toList "upload", c ≠ backtickChar ∧ c ≠ newlineChar) ∧
      ∃ pre post, String.toList "See :op:`upload`" =
        pre ++ matchText (String.toList "op") (String.toList "upload") ++ post :=
  findMatches_sound (t := String.toList "op") (v := String.toList "upload")
    (by decide)

/-! ## Claim C4 -/

/-- C4: when the documentation string contains exactly one tag occurrence
and its tag has a macro, `_doc_sub` returns the string with that entire
occurrence (prefix, backticks and all) replaced by the macro applied to the
value, exactly once. -/
theorem doc_sub_single_occurrence {doc t v : List Char}
    {macros : List Char → Option (List Char → List Char)} {f : List Char → List Char}
    (hm : findMatches doc = [(t, v)]) (hf : macros t = some f) :
    ∃ pre post, doc = pre ++ matchText t v ++ post ∧
      doc_sub doc macros = Except.ok (pre ++ f v ++ post) := by
  have hm' : findMatchesAux doc.length doc = [(t, v)] := hm
  obtain ⟨pre, after, hdoc, hafter, hnone, htag, hval⟩ :=
    findMatchesAux_cons_split (le_refl doc.length) hm'
  refine ⟨pre, after, hdoc, ?_⟩
  have hrepl : replaceAll doc (matchText t v) (f v) = pre ++ f v ++ after := by
    have hpre2 : ∀ k < pre.length,
        ¬ matchText t v <+: (pre ++ matchText t v ++ after).drop k := by
      intro k hk hp
      obtain ⟨z, hz⟩ := hp
      have hsome : matchAt ((pre ++ matchText t v ++ after).drop k) = some (t, v, z) := by
        rw [← hz]
        exact matchAt_of_shape z htag hval
      rw [← hdoc, hnone k hk] at hsome
      exact Option.noConfusion hsome
    have hpost2 : ∀ k, ¬ matchText t v <+: after.drop k := by
      intro k hp
      obtain ⟨z, hz⟩ := hp
      have hsome : matchAt (after.drop k) = some (t, v, z) := by
        rw [← hz]
        exact matchAt_of_shape z htag hval
      rw [findMatchesAux_nil_matchAt (le_refl after.length) hafter k] at hsome
      exact Option.noConfusion hsome
    have hsplit : replaceAllAux (pre ++ matchText t v ++ after).length
        (pre ++ matchText t v ++ after) (matchText t v) (f v) = pre ++ f v ++ after :=
      replaceAllAux_split (matchText_ne_nil t v) (le_refl _) hpre2 hpost2
    rw [hdoc]
    exact hsplit
  show doc_sub_go macros (findMatches doc) doc = Except.ok (pre ++ f v ++ after)
  rw [hm]
  simp only [doc_sub_go, hf]
  rw [hrepl]

/-- Witness for `doc_sub_single_occurrence` at a concrete input. -/
theorem doc_sub_single_occurrence_witness :
    ∃ pre post,
      String.toList "See :op:`upload`" =
        pre ++ matchText (String.toList "op") (String.toList "upload") ++ post ∧
      doc_sub (String.toList "See :op:`upload`") c4macros =
        Except.ok (pre ++ c4macroFn (String.toList "upload") ++ post) :=
  doc_sub_single_occurrence (by decide) rfl

/-! ## Claim C5 -/

/-- C5 counterexample: macro output is not always left intact.  With the
macro for tag `a` producing exactly the text of the later match of tag `b`,
the second `str.replace` rewrites the text inserted by the first macro, so
`doc_sub` disagrees with the literal-insertion single pass demanded by the
claim. -/
theorem doc_sub_single_pass_counterexample :
    doc_sub c5doc c5macros = Except.ok (String.toList "X and X") ∧
      specSinglePassSub c5doc c5macros = Except.ok (String.toList ":b:`2` and X") ∧
      doc_sub c5doc c5macros ≠ specSinglePassSub c5doc c5macros := by
  have e1 : doc_sub c5doc c5macros = Except.ok (String.toList "X and X") := rfl
  have e2 : specSinglePassSub c5doc c5macros =
      Except.ok (String.toList ":b:`2` and X") := rfl
  refine ⟨e1, e2, fun h => ?_⟩
  rw [e1, e2] at h
  exact absurd (Except.ok.inj h) (by decide)

/-- C5 (amended): the set of tag occurrences processed is determined by a
single scan of the original string: macro output is never re-scanned for
new tags, so whenever every tag found in the original string has a macro,
substitution succeeds, whatever text the macros produce.  (Each
replacement, however, is applied with replace-all on the evolving string,
so earlier-inserted text equal to a later matched text is rewritten, as the
counterexample shows.) -/
theorem doc_sub_tags_from_original_only {doc : List Char}
    {macros : List Char → Option (List Char → List Char)}
    (h : ∀ p ∈ findMatches doc, (macros p.1).isSome = true) :
    ∃ r, doc_sub doc macros = Except.ok r :=
  doc_sub_go_ok h

/-- Witness for `doc_sub_tags_from_original_only`. -/
theorem doc_sub_tags_from_original_only_witness :
    ∃ r, doc_sub c5doc c5macros = Except.ok r :=
  doc_sub_tags_from_original_only (by decide)

/-! ## Claim C6 -/

/-- C6: a documentation string containing a tag occurrence whose tag has no
macro makes `_doc_sub` raise (the source raises `Exception('Could not find
doc stub converter for tag ...')`); no string is returned. -/
theorem doc_sub_unknown_tag_errors {doc t v : List Char}
    {macros : List Char → Option (List Char → List Char)}
    (hmem : (t, v) ∈ findMatches doc) (habs : macros t = none) :
    ∃ t2, doc_sub doc macros = Except.error t2 ∧ macros t2 = none :=
  doc_sub_go_mem_error hmem habs

/-- Witness for `doc_sub_unknown_tag_errors`: an empty macro mapping. -/
theorem doc_sub_unknown_tag_errors_witness :
    ∃ t2, doc_sub (String.toList "See :op:`upload`")
        (fun _ => (none : Option (List Char → List Char))) = Except.error t2 ∧
      (fun _ => (none : Option (List Char → List Char))) t2 = none :=
  doc_sub_unknown_tag_errors (t := String.toList "op") (v := String.toList "upload")
    (by decide) rfl

/-! ## Lemmas about the extension dict (source lines 46-48) -/

theorem extfold_lookup (exts : List String) (lang : TargetLanguage)
    (m : String → Option TargetLanguage) (x : String) :
    (exts.foldl (fun m2 ext => extset m2 ext lang) m) x =
      if x ∈ exts then some lang else m x := by
  induction exts generalizing m with
  | nil => simp
  | cons e rest ih =>
    simp only [List.foldl_cons]
    rw [ih]
    by_cases hx : x ∈ rest
    · simp [hx, List.mem_cons]
    · by_cases he : x = e
      · simp [extset, hx, he, List.mem_cons]
      · simp [extset, hx, he, List.mem_cons]

theorem build_ext_fold_lookup (langs : List TargetLanguage)
    (m : String → Option TargetLanguage) (x : String) :
    (langs.foldl
        (fun m2 language =>
          language.supported_extensions.foldl
            (fun m3 ext => extset m3 ext language) m2) m) x =
      ((langs.reverse.find? (fun l => decide (x ∈ l.supported_extensions))).or (m x)) := by
  induction langs generalizing m with
  | nil => simp
  | cons L ls ih =>
    simp only [List.foldl_cons]
    rw [ih, List.reverse_cons, List.find?_append, extfold_lookup]
    cases hA : ls.reverse.find? (fun l => decide (x ∈ l.supported_extensions)) with
    | some l2 => simp [Option.or]
    | none =>
      simp only [Option.or]
      by_cases hx : x ∈ L.supported_extensions
      · simp [List.find?, hx]
      · simp [List.find?, hx]

/-- C2 (amended): `__init__` performs no duplicate-extension check; the
extension dict is built by successive assignment, so dispatch for an
extension resolves to the LAST registered language that claims it. -/
theorem ext_to_language_last_registered_wins (langs : List TargetLanguage)
    (ext : String) :
    (initEnv langs).ext_to_language ext =
      langs.reverse.find? (fun l => decide (ext ∈ l.supported_extensions)) := by
  show build_ext_to_language langs ext = _
  show (langs.foldl
      (fun m2 language =>
        language.supported_extensions.foldl
          (fun m3 e => extset m3 e language) m2) (fun _ => none)) ext = _
  rw [build_ext_fold_lookup]
  simp

/-- C2 counterexample: registering two languages that both claim `.txt`
does not fail; `__init__` returns a working generator whose dispatch for
`.txt` selects the second (last registered) language, refuting both the
claimed `ConfigurationError` and the claimed first-registered-wins
resolution. -/
theorem ext_collision_counterexample :
    ((initEnv [txtSampleOne, txtSampleTwo]).ext_to_language ".txt").map
      TargetLanguage.short_name = some "two" := rfl

/-! ## Lemmas about `render` -/

theorem render_unfold_mapped {ε : Type}
    (rt : (String → Option FilterVal) → String → Except ε String)
    (env : JEnv) (extension text : String) (language : TargetLanguage)
    (h : env.ext_to_language extension = some language) :
    render rt env extension text =
      match rt (overlayFor env.initFilters language) text with
      | Except.ok r => (Except.ok r, env)
      | Except.error e =>
        (Except.error e, { env with filters := overlayFor env.initFilters language }) := by
  unfold render
  rw [h]

/-- C1 (amended): when rendering succeeds, `render` restores the filter
dict active before the call; but when compilation or rendering raises, the
source (which has no try/finally around lines 97-99) propagates the
exception before the restoring assignment runs, leaving the language's
overlay active. -/
theorem render_filters_after {ε : Type}
    (rt : (String → Option FilterVal) → String → Except ε String)
    (env : JEnv) (extension text : String) (language : TargetLanguage)
    (h : env.ext_to_language extension = some language) :
    (∀ s, rt (overlayFor env.initFilters language) text = Except.ok s →
        ((render rt env extension text).2).filters = env.filters) ∧
    (∀ e, rt (overlayFor env.initFilters language) text = Except.error e →
        ((render rt env extension text).2).filters =
          overlayFor env.initFilters language) := by
  constructor
  · intro s hs
    rw [render_unfold_mapped rt env extension text language h, hs]
  · intro e he
    rw [render_unfold_mapped rt env extension text language h, he]

/-- Witness for `render_filters_after`: a failing render under a mapped
extension leaves the overlay as the active filter dict. -/
theorem render_filters_after_witness :
    ((render (fun _ _ => (Except.error () : Except Unit String))
        (initEnv [jsSample]) ".js" "t").2).filters =
      overlayFor (initEnv [jsSample]).initFilters jsSample :=
  (render_filters_after (fun _ _ => (Except.error () : Except Unit String))
    (initEnv [jsSample]) ".js" "t" jsSample rfl).2 () rfl

/-- C1 counterexample: the restoration invariant is not unconditional.
With a failing template under the mapped extension `.js`, the filter dict
after the call differs from the one before it (the plain name `type` is
bound after the call but was unbound before). -/
theorem render_restoration_counterexample :
    ¬ (((render (fun _ _ => (Except.error () : Except Unit String))
          (initEnv [jsSample]) ".js" "t").2).filters =
        (initEnv [jsSample]).filters) := by
  intro h
  have h2 := congrFun h "type"
  have h3 : (((render (fun _ _ => (Except.error () : Except Unit String))
      (initEnv [jsSample]) ".js" "t").2).filters "type").isSome = true := rfl
  have h4 : ((initEnv [jsSample]).filters "type").isSome = false := rfl
  rw [h2, h4] at h3
  exact Bool.noConfusion h3

theorem overlayFor_type (base : String → Option FilterVal) (L : TargetLanguage) :
    overlayFor base L "type" = some (FilterVal.strF L.format_type) := by
  simp [overlayFor, get_template_filters, dset]

/-- C7: rendering under an extension mapped to a language binds the plain
filter name `type` to that language's `format_type` for the duration of the
call, so the same template produces each language's own formatting under
its own extension and never the other language's. -/
theorem render_overlay_isolation (langs : List TargetLanguage)
    (L1 L2 : TargetLanguage) (e1 e2 text arg : String)
    (h1 : (initEnv langs).ext_to_language e1 = some L1)
    (h2 : (initEnv langs).ext_to_language e2 = some L2) :
    (render (probeType arg) (initEnv langs) e1 text).1 =
        Except.ok (L1.format_type arg) ∧
      (render (probeType arg) (initEnv langs) e2 text).1 =
        Except.ok (L2.format_type arg) ∧
      (L1.format_type arg ≠ L2.format_type arg →
        (render (probeType arg) (initEnv langs) e1 text).1 ≠
          (render (probeType arg) (initEnv langs) e2 text).1) := by
  have hp1 : probeType arg (overlayFor (initEnv langs).initFilters L1) text =
      Except.ok (L1.format_type arg) := by
    simp [probeType, overlayFor_type]
  have hp2 : probeType arg (overlayFor (initEnv langs).initFilters L2) text =
      Except.ok (L2.format_type arg) := by
    simp [probeType, overlayFor_type]
  have k1 : (render (probeType arg) (initEnv langs) e1 text).1 =
      Except.ok (L1.format_type arg) := by
    rw [render_unfold_mapped (probeType arg) (initEnv langs) e1 text L1 h1, hp1]
  have k2 : (render (probeType arg) (initEnv langs) e2 text).1 =
      Except.ok (L2.format_type arg) := by
    rw [render_unfold_mapped (probeType arg) (initEnv langs) e2 text L2 h2, hp2]
  refine ⟨k1, k2, fun hne heq => ?_⟩
  rw [k1, k2] at heq
  exact hne (Except.ok.inj heq)

/-- Witness for `render_overlay_isolation` with the sample js and python
languages. -/
theorem render_overlay_isolation_witness :
    (render (probeType "x") (initEnv [jsSample, pySample]) ".js" "tpl").1 =
        Except.ok ("x" ++ "#t" ++ "js") ∧
      (render (probeType "x") (initEnv [jsSample, pySample]) ".py" "tpl").1 =
        Except.ok ("x" ++ "#t" ++ "python") := by
  have h := render_overlay_isolation [jsSample, pySample] jsSample pySample
    ".js" ".py" "tpl" "x" rfl rfl
  exact ⟨h.1, h.2.1⟩

/-! ## Lemmas about the prefixed filter names (source lines 81-90) -/

theorem foldl_dset_not_written (writes : List (String × FilterVal))
    (m : String → Option FilterVal) (k : String)
    (hk : ∀ p ∈ writes, p.1 ≠ k) :
    (writes.foldl (fun fs p => dset fs p.1 p.2) m) k = m k := by
  induction writes generalizing m with
  | nil => rfl
  | cons q ws ih =>
    simp only [List.foldl_cons]
    rw [ih _ (fun p hp => hk p (List.mem_cons_of_mem q hp))]
    show (if k = q.1 then some q.2 else m k) = m k
    exact if_neg (fun he => hk q (List.mem_cons_self q ws) he.symm)

theorem foldl_dset_write_const (writes : List (String × FilterVal))
    (m : String → Option FilterVal) (k : String) (v : FilterVal)
    (hall : ∀ p ∈ writes, p.1 = k → p.2 = v)
    (hex : ∃ p ∈ writes, p.1 = k) :
    (writes.foldl (fun fs p => dset fs p.1 p.2) m) k = some v := by
  induction writes generalizing m with
  | nil =>
    obtain ⟨p, hp, _⟩ := hex
    simp at hp
  | cons q ws ih =>
    simp only [List.foldl_cons]
    by_cases hws : ∃ p ∈ ws, p.1 = k
    · exact ih _ (fun p hp => hall p (List.mem_cons_of_mem q hp)) hws
    · have hq : q.1 = k := by
        obtain ⟨p, hp, hpk⟩ := hex
        rcases List.mem_cons.mp hp with h1 | h2
        · rw [← h1]; exact hpk
        · exact absurd ⟨p, h2, hpk⟩ hws
      rw [foldl_dset_not_written ws _ k (fun p hp hpk => hws ⟨p, hp, hpk⟩)]
      have hv : q.2 = v := hall q (List.mem_cons_self q ws) hq
      show (if k = q.1 then some q.2 else m k) = some v
      rw [if_pos hq.symm, hv]

theorem innerPrefixed_eq (L : TargetLanguage) (m : String → Option FilterVal) :
    (get_template_filters L).foldl
        (fun fs2 p => dset fs2 (prefixedName L p.1) (FilterVal.strF p.2)) m =
      ((get_template_filters L).map
          (fun p => (prefixedName L p.1, FilterVal.strF p.2))).foldl
        (fun fs p => dset fs p.1 p.2) m := by
  rw [List.foldl_map]

theorem innerPrefixed_preserve (L : TargetLanguage) (m : String → Option FilterVal)
    (k : String) (hk : ∀ p ∈ get_template_filters L, prefixedName L p.1 ≠ k) :
    ((get_template_filters L).foldl
        (fun fs2 p => dset fs2 (prefixedName L p.1) (FilterVal.strF p.2)) m) k = m k := by
  rw [innerPrefixed_eq]
  apply foldl_dset_not_written
  intro q hq
  obtain ⟨p, hp, hfp⟩ := List.mem_map.mp hq
  rw [← hfp]
  exact hk p hp

theorem innerPrefixed_write (L : TargetLanguage) (m : String → Option FilterVal)
    (k : String) (v : FilterVal)
    (hall : ∀ p ∈ get_template_filters L,
      prefixedName L p.1 = k → FilterVal.strF p.2 = v)
    (hex : ∃ p ∈ get_template_filters L, prefixedName L p.1 = k) :
    ((get_template_filters L).foldl
        (fun fs2 p => dset fs2 (prefixedName L p.1) (FilterVal.strF p.2)) m) k = some v := by
  rw [innerPrefixed_eq]
  apply foldl_dset_write_const
  · intro q hq hqk
    obtain ⟨p, hp, hfp⟩ := List.mem_map.mp hq
    rw [← hfp] at hqk ⊢
    exact hall p hp hqk
  · obtain ⟨p, hp, hpk⟩ := hex
    exact ⟨(prefixedName L p.1, FilterVal.strF p.2), List.mem_map_of_mem _ hp, hpk⟩

theorem addPrefixedFilters_preserve (langs : List TargetLanguage)
    (m : String → Option FilterVal) (k : String)
    (hk : ∀ L ∈ langs, ∀ p ∈ get_template_filters L, prefixedName L p.1 ≠ k) :
    addPrefixedFilters m langs k = m k := by
  induction langs generalizing m with
  | nil => rfl
  | cons L ls ih =>
    have hstep : addPrefixedFilters m (L :: ls) =
        addPrefixedFilters
          ((get_template_filters L).foldl
            (fun fs2 p => dset fs2 (prefixedName L p.1) (FilterVal.strF p.2)) m) ls := rfl
    rw [hstep, ih _ (fun L2 hL2 => hk L2 (List.mem_cons_of_mem L hL2))]
    exact innerPrefixed_preserve L m k (hk L (List.mem_cons_self L ls))

theorem addPrefixedFilters_write (langs : List TargetLanguage)
    (m : String → Option FilterVal) (k : String) (v : FilterVal)
    (hall : ∀ L ∈ langs, ∀ p ∈ get_template_filters L,
        prefixedName L p.1 = k → FilterVal.strF p.2 = v)
    (hex : ∃ L ∈ langs, ∃ p ∈ get_template_filters L, prefixedName L p.1 = k) :
    addPrefixedFilters m langs k = some v := by
  induction langs generalizing m with
  | nil =>
    obtain ⟨L, hL, _⟩ := hex
    simp at hL
  | cons L ls ih =>
    have hstep : addPrefixedFilters m (L :: ls) =
        addPrefixedFilters
          ((get_template_filters L).foldl
            (fun fs2 p => dset fs2 (prefixedName L p.1) (FilterVal.strF p.2)) m) ls := rfl
    rw [hstep]
    by_cases hls : ∃ L2 ∈ ls, ∃ p ∈ get_template_filters L2, prefixedName L2 p.1 = k
    · exact ih _ (fun L2 hL2 => hall L2 (List.mem_cons_of_mem L hL2)) hls
    · have hnolater : ∀ L2 ∈ ls, ∀ p ∈ get_template_filters L2,
          prefixedName L2 p.1 ≠ k :=
        fun L2 hL2 p hp hpk => hls ⟨L2, hL2, p, hp, hpk⟩
      rw [addPrefixedFilters_preserve ls _ k hnolater]
      have hex2 : ∃ p ∈ get_template_filters L, prefixedName L p.1 = k := by
        obtain ⟨L2, hL2, p, hp, hpk⟩ := hex
        rcases List.mem_cons.mp hL2 with h1 | h2
        · rw [h1] at hp hpk
          exact ⟨p, hp, hpk⟩
        · exact absurd ⟨L2, h2, p, hp, hpk⟩ hls
      exact innerPrefixed_write L m k v (hall L (List.mem_cons_self L ls)) hex2

theorem overlayFor_eq (base : String → Option FilterVal) (L : TargetLanguage) :
    overlayFor base L =
      ((get_template_filters L).map
          (fun p => (p.1, FilterVal.strF p.2))).foldl
        (fun fs p => dset fs p.1 p.2) base := by
  rw [List.foldl_map]
  rfl

theorem overlayFor_not_plain (base : String → Option FilterVal)
    (L : TargetLanguage) (k : String)
    (hk : ∀ p ∈ get_template_filters L, p.1 ≠ k) :
    overlayFor base L k = base k := by
  rw [overlayFor_eq]
  apply foldl_dset_not_written
  intro q hq
  obtain ⟨p, hp, hfp⟩ := List.mem_map.mp hq
  rw [← hfp]
  exact hk p hp

/-- C8: a language's filters stay bound under their language-prefixed names
at every moment: in the environment's base filter dict (no overlay active)
and in every language's overlay (including a different language's),
provided (as with the real js/python/ruby languages) no prefixed name
collides with another prefixed name bound to a different implementation or
with one of the seven plain filter names. -/
theorem prefixed_filter_always_bound (langs : List TargetLanguage)
    (L : TargetLanguage) (fname : String) (impl : String → String)
    (hL : L ∈ langs) (hmem : (fname, impl) ∈ get_template_filters L)
    (hkey : ∀ L2 ∈ langs, ∀ p ∈ get_template_filters L2,
        prefixedName L2 p.1 = prefixedName L fname →
          FilterVal.strF p.2 = FilterVal.strF impl)
    (hplain : ∀ M : TargetLanguage, ∀ p ∈ get_template_filters M,
        p.1 ≠ prefixedName L fname) :
    (initEnv langs).filters (prefixedName L fname) = some (FilterVal.strF impl) ∧
      ∀ M : TargetLanguage,
        overlayFor (initEnv langs).initFilters M (prefixedName L fname) =
          some (FilterVal.strF impl) := by
  have hbase : addPrefixedFilters baseFilters langs (prefixedName L fname) =
      some (FilterVal.strF impl) :=
    addPrefixedFilters_write langs baseFilters _ _ hkey
      ⟨L, hL, (fname, impl), hmem, rfl⟩
  refine ⟨hbase, fun M => ?_⟩
  rw [overlayFor_not_plain _ M _ (hplain M)]
  exact hbase

/-- Witness for `prefixed_filter_always_bound`: `js_type` resolves to the
js sample language's formatter both with no overlay and inside the python
overlay. -/
theorem prefixed_filter_always_bound_witness :
    (initEnv [jsSample, pySample]).filters (prefixedName jsSample "type") =
        some (FilterVal.strF jsSample.format_type) ∧
      overlayFor (initEnv [jsSample, pySample]).initFilters pySample
          (prefixedName jsSample "type") =
        some (FilterVal.strF jsSample.format_type) := by
  have hkey : ∀ L2 ∈ [jsSample, pySample], ∀ p ∈ get_template_filters L2,
      prefixedName L2 p.1 = prefixedName jsSample "type" →
        FilterVal.strF p.2 = FilterVal.strF jsSample.format_type := by
    intro L2 hL2 p hp heq
    fin_cases hL2 <;>
      (simp only [get_template_filters, List.mem_cons, List.mem_singleton,
        List.not_mem_nil, or_false] at hp
       rcases hp with rfl | rfl | rfl | rfl | rfl | rfl | rfl <;>
        first
          | rfl
          | exact absurd heq (by decide))
  have hplain : ∀ M : TargetLanguage, ∀ p ∈ get_template_filters M,
      p.1 ≠ prefixedName jsSample "type" := by
    intro M p hp
    simp only [get_template_filters, List.mem_cons, List.mem_singleton,
      List.not_mem_nil, or_false] at hp
    rcases hp with rfl | rfl | rfl | rfl | rfl | rfl | rfl <;>
      simp [prefixedName, jsSample, sampleLanguage]
  have h := prefixed_filter_always_bound [jsSample, pySample] jsSample "type"
    jsSample.format_type (by simp) (by simp [get_template_filters]) hkey hplain
  exact ⟨h.1, h.2 pySample⟩

/-! ## Claims C9 and C10 -/

/-- C9: `TrimExtension.parse` consumes one expression (the tag's own name
token) and returns no nodes, so a template of three expressions separated
by trim directives (whose minus markers strip the following line breaks)
renders to the three outputs concatenated with no intervening line
break. -/
theorem trim_directive_concat (evalExpr : String → String) (a b c : String) :
    (parseItems (applyTrimWhitespace
        [RawItem.exprTag a, RawItem.trimTag, RawItem.rawText "\n",
         RawItem.exprTag b, RawItem.trimTag, RawItem.rawText "\n",
         RawItem.exprTag c])).map (renderNodes evalExpr) =
      some (evalExpr a ++ evalExpr b ++ evalExpr c) := by
  have h : parseItems (applyTrimWhitespace
      [RawItem.exprTag a, RawItem.trimTag, RawItem.rawText "\n",
       RawItem.exprTag b, RawItem.trimTag, RawItem.rawText "\n",
       RawItem.exprTag c]) =
      some [JNode.outputExpr a, JNode.outputExpr b, JNode.outputExpr c] := rfl
  rw [h]
  simp [renderNodes, String.append_assoc]

/-- C10: the generic filter `is_composite` tests for `Union` exactly as
`is_union` does; they agree on every value, and a `Struct` value is never
composite. -/
theorem is_composite_eq_is_union :
    (∀ v : DataValue, is_composite_filter v = is_union_filter v ∧
        (is_composite_filter v = true ↔ v = DataValue.union)) ∧
      is_composite_filter DataValue.struct = false := by
  refine ⟨fun v => ?_, rfl⟩
  cases v <;> simp [is_composite_filter, is_union_filter]
